import Mathlib

/-!
Verification of the Monte Carlo portfolio projection engine
(`backend/core/monte_carlo.py`) against its natural-language specification.

The Python code is shallowly embedded over `ℝ`: pandas DataFrames become
`List (List ℝ)` (rows of column values), numpy arrays become `List ℝ`,
and the numpy random generator becomes an explicit stream `g : ℕ → ℝ`
of the standard-normal draws it would produce (the `n`-th value drawn).
Python exceptions are modelled with `Except SimError`.
-/

namespace SmartRisk

/-- The Python exceptions that can abort a call: `IndexError` (indexing an
empty frame), numpy shape/broadcast `ValueError`, `np.linalg.LinAlgError`,
and the `AttributeError`/`TypeError` from using the `None` placeholder. -/
inductive SimError where
  | indexError
  | shapeError
  | linalgError
  | noneTypeError
deriving DecidableEq, Repr

/-- The dict returned by `run_monte_carlo_simulation`:
`{'years': [...], 'percentiles': {'p10': [...], 'p50': [...], 'p90': [...], 'mean': [...]}}`. -/
structure ProjectionResult where
  years : List ℕ
  p10 : List ℝ
  p50 : List ℝ
  p90 : List ℝ
  mean : List ℝ

/-- Dot product of two vectors, the numpy `@` / `.dot` reduction. -/
noncomputable def dot (xs ys : List ℝ) : ℝ :=
  ((xs.zip ys).map fun p => p.1 * p.2).sum

/-- Number of asset columns of a row-major table. -/
def nCols (rows : List (List ℝ)) : ℕ := (rows.headD []).length

/-- Column `j` of a row-major table. -/
def colVals (rows : List (List ℝ)) (j : ℕ) : List ℝ :=
  rows.map fun r => r.getD j 0

/-- Sample mean of column `j`, as computed by `daily_returns.mean()`. -/
noncomputable def colMean (rows : List (List ℝ)) (j : ℕ) : ℝ :=
  (colVals rows j).sum / (rows.length : ℝ)

/-- The vector `daily_returns.mean().values`, one mean per asset column. -/
noncomputable def colMeans (rows : List (List ℝ)) : List ℝ :=
  (List.range (nCols rows)).map fun j => colMean rows j

/-- Entry `(i, j)` of the sample covariance matrix `daily_returns.cov().values`
(pandas uses the unbiased `n - 1` denominator). -/
noncomputable def covEntry (rows : List (List ℝ)) (i j : ℕ) : ℝ :=
  ((rows.map fun r =>
      (r.getD i 0 - colMean rows i) * (r.getD j 0 - colMean rows j)).sum) /
    ((rows.length : ℝ) - 1)

/-- The full covariance matrix of the asset columns. -/
noncomputable def covMatrix (rows : List (List ℝ)) : List (List ℝ) :=
  (List.range (nCols rows)).map fun i =>
    (List.range (nCols rows)).map fun j => covEntry rows i j

/-- Mean of one row across assets, the `price_data.iloc[t].mean()` composite. -/
noncomputable def rowMean (r : List ℝ) : ℝ := r.sum / (r.length : ℝ)

/-- Builds the strict lower-triangular part of row `i` of the Cholesky factor
from the already completed rows `done`, mirroring the column sweep of
`np.linalg.cholesky`: entry `j` is `(A i j - Σ_{t<j} L i t * L j t) / L j j`. -/
noncomputable def cholRowAux (a : List ℝ) : List (List ℝ) → List ℝ → ℕ → List ℝ
  | [], cur, _ => cur
  | dj :: rest, cur, j =>
    cholRowAux a rest (cur ++ [(a.getD j 0 - dot cur dj) / dj.getD j 0]) (j + 1)

/-- Processes one row of the input matrix during Cholesky decomposition.
The pivot `A i i - Σ_{t<i} (L i t)^2` must be strictly positive, exactly the
positive-definiteness test under which LAPACK `potrf` (hence
`np.linalg.cholesky`) succeeds; otherwise the decomposition fails. -/
noncomputable def cholStep (n : ℕ) (done : List (List ℝ)) (a : List ℝ) :
    Option (List (List ℝ)) :=
  let i := done.length
  let cur := cholRowAux a done [] 0
  let d := a.getD i 0 - dot cur cur
  if d ≤ 0 then none
  else some (done ++ [cur ++ [Real.sqrt d] ++ List.replicate (n - (i + 1)) 0])

/-- `np.linalg.cholesky`: returns the lower-triangular factor, or `none` when
the matrix is not positive definite (the `np.linalg.LinAlgError` case). -/
noncomputable def cholOpt (A : List (List ℝ)) : Option (List (List ℝ)) :=
  List.foldlM (cholStep A.length) [] A

/-- The numpy sum `cov_matrix + np.eye(asset_count) * 1e-8`.  Broadcasting
rules: an `n×n` plus `k×k` sum needs `n = k`, except that a `1×1` matrix
broadcasts against `k×k`; any other combination raises a shape `ValueError`. -/
noncomputable def jitterAdd (A : List (List ℝ)) (k : ℕ) : Option (List (List ℝ)) :=
  let n := A.length
  if n = k then
    some ((List.range n).map fun i => (List.range n).map fun j =>
      (A.getD i []).getD j 0 + if i = j then 1e-8 else 0)
  else if n = 1 then
    some ((List.range k).map fun i => (List.range k).map fun j =>
      (A.getD 0 []).getD 0 0 + if i = j then 1e-8 else 0)
  else none

/-- The `try/except` around `np.linalg.cholesky` in `run_monte_carlo_simulation`:
one attempt on the covariance matrix, then on failure exactly one retry after
adding the `1e-8` diagonal jitter; a second failure propagates the error. -/
noncomputable def cholSetup (A : List (List ℝ)) (k : ℕ) :
    Except SimError (List (List ℝ)) :=
  match cholOpt A with
  | some L => .ok L
  | none =>
    match jitterAdd A k with
    | none => .error .shapeError
    | some A2 =>
      match cholOpt A2 with
      | some L => .ok L
      | none => .error .linalgError

/-- One day's update `current_values *= (1 + daily_returns)` for a chunk,
path by path: path `j` receives the sampled return `ret j`. -/
noncomputable def stepDayAux (ret : ℕ → ℝ) : ℕ → List ℝ → List ℝ
  | _, [] => []
  | j, v :: vs => v * (1 + ret j) :: stepDayAux ret (j + 1) vs

/-- Applies `stepDayAux` starting at path index 0. -/
noncomputable def stepDay (ret : ℕ → ℝ) (vals : List ℝ) : List ℝ :=
  stepDayAux ret 0 vals

/-- Evolves a chunk of path values through `d` further days.  `dayRet off j`
is the return sampled for path `j` of a day whose draws start at stream
offset `off`; each day consumes `stride` draws from the generator. -/
noncomputable def runDays (dayRet : ℕ → ℕ → ℝ) (stride : ℕ) :
    ℕ → ℕ → List ℝ → List ℝ
  | 0, _, vals => vals
  | d + 1, off, vals => runDays dayRet stride d (off + stride) (stepDay (dayRet off) vals)

/-- The chunk sizes produced by `range(0, num_paths, chunk_size)` together
with `paths_in_chunk = min(chunk_size, num_paths - chunk_start)`.  The inner
`max 1` only guards termination; the caller always passes `cs ≥ 1`. -/
def chunkSizes : ℕ → ℕ → List ℕ
  | 0, _ => []
  | np + 1, cs =>
    let s := min (max 1 cs) (np + 1)
    s :: chunkSizes (np + 1 - s) cs

/-- All values collected for year `y` across the chunks, in chunk order:
each chunk contributes its `current_values` snapshot at day `252 * y`
when that day is reached by the day loop (`1 ≤ 252*y ≤ total_days`),
matching the `capture_lookup` append of the source.  `dpp` is the number
of generator draws consumed per path per day (1 for a single asset,
`asset_count` otherwise), so a chunk of `p` paths consumes
`p * dpp * totalDays` draws. -/
noncomputable def yearSamples (dayRet : ℕ → ℕ → ℝ) (dpp : ℕ) (init : ℝ)
    (totalDays y : ℕ) : List ℕ → ℕ → List ℝ
  | [], _ => []
  | p :: rest, off =>
    (if 1 ≤ 252 * y ∧ 252 * y ≤ totalDays then
        runDays dayRet (p * dpp) (252 * y) off (List.replicate p init)
      else []) ++
      yearSamples dayRet dpp init totalDays y rest (off + p * dpp * totalDays)

/-- Linear interpolation of sorted data `s` at fractional position `h`,
between the order statistics at `⌊h⌋` and the next index (clamped to the
last index), as `np.percentile`'s default method computes it. -/
noncomputable def interpAt (s : List ℝ) (h : ℝ) : ℝ :=
  s.getD ⌊h⌋₊ 0 +
    (h - (⌊h⌋₊ : ℝ)) * (s.getD (min (⌊h⌋₊ + 1) (s.length - 1)) 0 - s.getD ⌊h⌋₊ 0)

/-- `np.percentile(xs, p)` with the default linear interpolation between
order statistics: position `h = p/100 * (n-1)` into the sorted data. -/
noncomputable def percentile (p : ℝ) (xs : List ℝ) : ℝ :=
  let s := List.insertionSort (· ≤ ·) xs
  interpAt s (p / 100 * ((s.length : ℝ) - 1))

/-- `float(np.mean(xs))`. -/
noncomputable def listMean (xs : List ℝ) : ℝ := xs.sum / (xs.length : ℝ)

/-- The aggregator fallback: `year_samples = collected if collected else
[initial_value]`. -/
noncomputable def aggregateYear (init : ℝ) (samples : List ℝ) : List ℝ :=
  if samples = [] then [init] else samples

/-- Assembles the returned dict from the per-year collected samples. -/
noncomputable def buildResult (init : ℝ) (ny : ℕ) (samplesOf : ℕ → List ℝ) :
    ProjectionResult :=
  let ys := List.range' 1 ny
  { years := ys
    p10 := ys.map fun y => percentile 10 (aggregateYear init (samplesOf y))
    p50 := ys.map fun y => percentile 50 (aggregateYear init (samplesOf y))
    p90 := ys.map fun y => percentile 90 (aggregateYear init (samplesOf y))
    mean := ys.map fun y => listMean (aggregateYear init (samplesOf y)) }

/-- The row of `k` standard normals drawn for one path on one day,
`rng.standard_normal(size=(paths, assets))` being filled row-major. -/
def drawVec (g : ℕ → ℝ) (off k : ℕ) : List ℝ :=
  (List.range k).map fun i => g (off + i)

/-- The multi-asset portfolio return of one path for one day:
`(standard_normals @ chol.T + mean_returns) @ weights_array`, where the
mean vector has already been broadcast to the factor's dimension. -/
noncomputable def corrReturn (L : List (List ℝ)) (means w z : List ℝ) : ℝ :=
  dot ((List.range L.length).map fun j => dot z (L.getD j []) + means.getD j 0) w

/-- The multi-asset simulation continuing after the Cholesky factor `L` has
been computed (once, before any chunk): numpy raises a shape `ValueError` on
the first day's matrix products iff the dimensions cannot be multiplied or
broadcast, i.e. iff `asset_count ≠ dim L`, or the mean vector's length is
neither `dim L` nor 1; otherwise every chunk and every day reuses `L`. -/
noncomputable def multiAfterChol (rows : List (List ℝ)) (weights : List ℝ)
    (numYears numPaths : ℕ) (initialValue : ℝ) (chunkSize : ℕ) (g : ℕ → ℝ)
    (L : List (List ℝ)) : Except SimError ProjectionResult :=
  let np := max 1 numPaths
  let totalDays := 252 * numYears
  let ncols := nCols rows
  let k := weights.length
  let cs := max 1 (min chunkSize np)
  let sizes := chunkSizes np cs
  let m := L.length
  if 1 ≤ totalDays ∧ (k ≠ m ∨ (ncols ≠ m ∧ ncols ≠ 1)) then .error .shapeError
  else
    let means := if ncols = 1 then List.replicate m (colMean rows 0) else colMeans rows
    let dayRet : ℕ → ℕ → ℝ := fun off j => corrReturn L means weights (drawVec g (off + j * k) k)
    .ok (buildResult initialValue numYears
      (fun y => yearSamples dayRet k initialValue totalDays y sizes 0))

/-- Shallow embedding of `run_monte_carlo_simulation(daily_returns, weights,
num_years, num_paths, initial_value)` with the environment-supplied
`MC_PATH_CHUNK_SIZE` passed explicitly as `chunkSize` and the internally
created generator's standard-normal draw stream passed explicitly as `g`
(the source creates `rng = np.random.default_rng()` with no seed, so the
stream is an implicit input of the call, not derived from any argument).
Single-asset sampling `rng.normal(loc, scale, size)` is `loc + scale * z`
for the next standard normals `z`. -/
noncomputable def run_monte_carlo_simulation (dailyReturns : List (List ℝ))
    (weights : List ℝ) (numYears numPaths : ℕ) (initialValue : ℝ)
    (chunkSize : ℕ) (g : ℕ → ℝ) : Except SimError ProjectionResult :=
  let np := max 1 numPaths
  let totalDays := 252 * numYears
  let ncols := nCols dailyReturns
  let k := weights.length
  let cs := max 1 (min chunkSize np)
  let sizes := chunkSizes np cs
  if k = 1 then
    if ncols = 0 then .error .indexError
    else
      let μ := colMean dailyReturns 0
      let σ := Real.sqrt (max (covEntry dailyReturns 0 0) 0)
      let dayRet : ℕ → ℕ → ℝ := fun off j => μ + σ * g (off + j)
      .ok (buildResult initialValue numYears
        (fun y => yearSamples dayRet 1 initialValue totalDays y sizes 0))
  else if k = 0 then
    if ncols = 0 then .error .indexError
    else if 1 ≤ totalDays then .error .noneTypeError
    else .ok (buildResult initialValue numYears (fun _ => []))
  else
    match cholSetup (covMatrix dailyReturns) k with
    | .error e => .error e
    | .ok L =>
      multiAfterChol dailyReturns weights numYears numPaths initialValue chunkSize g L

/-- Shallow embedding of `calculate_historical_cagr(price_data)`.
`price_data.iloc[0]` raises `IndexError` on an empty frame; otherwise the
function is total, returning `0.0` on the degenerate guard and
`(final/initial) ** (1/num_years) - 1` (real power) otherwise. -/
noncomputable def calculate_historical_cagr (priceData : List (List ℝ)) :
    Except SimError ℝ :=
  match priceData with
  | [] => .error .indexError
  | r0 :: _ =>
    let initial := rowMean r0
    let final := rowMean (priceData.getLastD [])
    let numYears := (priceData.length : ℝ) / 252
    if initial ≤ 0 ∨ final ≤ 0 ∨ numYears ≤ 0 then .ok 0
    else .ok ((final / initial) ^ (1 / numYears) - 1)

/-- Shallow embedding of `calculate_portfolio_historical_cagr(price_data,
weights)`: prices are normalized row-wise by the first row, reduced by
`DataFrame.dot(weights)` (which raises on a length mismatch with the column
count), and the same CAGR formula is applied to the first and last portfolio
values. -/
noncomputable def calculate_portfolio_historical_cagr
    (priceData : List (List ℝ)) (weights : List ℝ) : Except SimError ℝ :=
  match priceData with
  | [] => .error .indexError
  | r0 :: _ =>
    if r0.length ≠ weights.length then .error .shapeError
    else
      let portfolio := priceData.map fun r =>
        dot ((r.zip r0).map fun p => p.1 / p.2) weights
      let initial := portfolio.headD 0
      let final := portfolio.getLastD 0
      let numYears := (priceData.length : ℝ) / 252
      if initial ≤ 0 ∨ final ≤ 0 ∨ numYears ≤ 0 then .ok 0
      else .ok ((final / initial) ^ (1 / numYears) - 1)

/-- Single-asset price series with constant per-day growth factor `g0`:
row `i` is `p0 * g0 ^ i`. -/
noncomputable def geomSeries (p0 g0 : ℝ) (N : ℕ) : List (List ℝ) :=
  (List.range N).map fun i => [p0 * g0 ^ i]

/-- The projection the engine returns when every sampled daily return equals
the constant `c`: every path's value at year `y` is `init * (1+c)^(252*y)`,
so all four summary statistics coincide with that closed form. -/
noncomputable def constResult (init c : ℝ) (ny : ℕ) : ProjectionResult :=
  { years := List.range' 1 ny
    p10 := (List.range' 1 ny).map fun y => init * (1 + c) ^ (252 * y)
    p50 := (List.range' 1 ny).map fun y => init * (1 + c) ^ (252 * y)
    p90 := (List.range' 1 ny).map fun y => init * (1 + c) ^ (252 * y)
    mean := (List.range' 1 ny).map fun y => init * (1 + c) ^ (252 * y) }

/-- The all-zero draw stream. -/
def gZero : ℕ → ℝ := fun _ => 0

/-- A draw stream constantly `-(3/2)`. -/
noncomputable def gNeg : ℕ → ℝ := fun _ => -(3 / 2)

theorem chunkSizes_sum (np cs : ℕ) : (chunkSizes np cs).sum = np := by
  induction np using Nat.strong_induction_on with
  | _ np ih =>
    match np with
    | 0 => simp [chunkSizes]
    | np + 1 =>
      rw [chunkSizes]
      have hs : 1 ≤ min (max 1 cs) (np + 1) :=
        le_min (le_max_left _ _) (Nat.succ_le_succ (Nat.zero_le _))
      have hle : min (max 1 cs) (np + 1) ≤ np + 1 := min_le_right _ _
      have hrec := ih (np + 1 - min (max 1 cs) (np + 1)) (by omega)
      simp only [List.sum_cons, hrec]
      omega

theorem chunkSizes_pos (np cs : ℕ) : ∀ x ∈ chunkSizes np cs, 1 ≤ x := by
  induction np using Nat.strong_induction_on with
  | _ np ih =>
    match np with
    | 0 => simp [chunkSizes]
    | np + 1 =>
      rw [chunkSizes]
      intro x hx
      have hs : 1 ≤ min (max 1 cs) (np + 1) :=
        le_min (le_max_left _ _) (Nat.succ_le_succ (Nat.zero_le _))
      rcases List.mem_cons.mp hx with h | h
      · omega
      · exact ih (np + 1 - min (max 1 cs) (np + 1)) (by omega) x h

theorem chunkSizes_ne_nil (np cs : ℕ) (h : 1 ≤ np) : chunkSizes np cs ≠ [] := by
  match np with
  | np + 1 => rw [chunkSizes]; exact List.cons_ne_nil _ _

theorem stepDayAux_length (ret : ℕ → ℝ) (j : ℕ) (vs : List ℝ) :
    (stepDayAux ret j vs).length = vs.length := by
  induction vs generalizing j with
  | nil => simp [stepDayAux]
  | cons v vs ih => simp [stepDayAux, ih]

theorem stepDayAux_replicate (c : ℝ) (ret : ℕ → ℝ) (hret : ∀ j, ret j = c)
    (p : ℕ) (v : ℝ) (j : ℕ) :
    stepDayAux ret j (List.replicate p v) = List.replicate p (v * (1 + c)) := by
  induction p generalizing j with
  | zero => simp [stepDayAux]
  | succ p ih => simp [List.replicate_succ, stepDayAux, hret, ih]

theorem runDays_length (dayRet : ℕ → ℕ → ℝ) (stride d off : ℕ) (vals : List ℝ) :
    (runDays dayRet stride d off vals).length = vals.length := by
  induction d generalizing off vals with
  | zero => simp [runDays]
  | succ d ih => rw [runDays, ih, stepDay, stepDayAux_length]

theorem runDays_replicate (dayRet : ℕ → ℕ → ℝ) (c : ℝ)
    (h : ∀ off j, dayRet off j = c) (stride d off p : ℕ) (v : ℝ) :
    runDays dayRet stride d off (List.replicate p v) =
      List.replicate p (v * (1 + c) ^ d) := by
  induction d generalizing off v with
  | zero => simp [runDays]
  | succ d ih =>
    rw [runDays, stepDay, stepDayAux_replicate c _ (fun j => h off j), ih]
    congr 1
    ring

theorem yearSamples_length (dayRet : ℕ → ℕ → ℝ) (dpp : ℕ) (init : ℝ)
    (totalDays y : ℕ) (sizes : List ℕ) (off : ℕ) :
    (yearSamples dayRet dpp init totalDays y sizes off).length =
      if 1 ≤ 252 * y ∧ 252 * y ≤ totalDays then sizes.sum else 0 := by
  induction sizes generalizing off with
  | nil => simp [yearSamples]
  | cons p rest ih =>
    rw [yearSamples]
    by_cases hcap : 1 ≤ 252 * y ∧ 252 * y ≤ totalDays
    · simp [hcap, runDays_length, ih]
    · simp [hcap, ih]

theorem getD_replicate_of_lt {m i : ℕ} (v : ℝ) (h : i < m) :
    (List.replicate m v).getD i 0 = v := by
  rw [List.getD_eq_get _ 0 (by simpa using h)]
  exact List.get_replicate _ _

theorem sorted_getD_mono (s : List ℝ) (hs : s.Sorted (· ≤ ·)) {i j : ℕ}
    (hij : i ≤ j) (hj : j < s.length) : s.getD i 0 ≤ s.getD j 0 := by
  rcases Nat.lt_or_ge i j with h | h
  · have hi : i < s.length := lt_of_lt_of_le h (Nat.le_of_lt_succ (Nat.lt_succ_of_lt hj))
    rw [List.getD_eq_get s 0 hi, List.getD_eq_get s 0 hj]
    exact hs.rel_get_of_lt (Fin.mk_lt_mk.mpr h)
  · have hij' : i = j := le_antisymm hij h
    subst hij'
    exact le_refl _

theorem interpAt_mono (s : List ℝ) (hs : s.Sorted (· ≤ ·)) (hlen : 1 ≤ s.length)
    {a b : ℝ} (ha0 : 0 ≤ a) (hab : a ≤ b) (hb : b ≤ (s.length : ℝ) - 1) :
    interpAt s a ≤ interpAt s b := by
  have hb0 : 0 ≤ b := le_trans ha0 hab
  have hcast : ((s.length - 1 : ℕ) : ℝ) = (s.length : ℝ) - 1 := by
    rw [Nat.cast_sub hlen, Nat.cast_one]
  have hij : ⌊a⌋₊ ≤ ⌊b⌋₊ := Nat.floor_le_floor hab
  have hjtop : ⌊b⌋₊ ≤ s.length - 1 := by
    have := Nat.floor_le_floor (hcast ▸ hb)
    simpa [Nat.floor_natCast] using this
  have hjlt : ⌊b⌋₊ < s.length := by omega
  have hilt : ⌊a⌋₊ < s.length := lt_of_le_of_lt hij hjlt
  have hfa0 : (⌊a⌋₊ : ℝ) ≤ a := Nat.floor_le ha0
  have hfa1 : a < (⌊a⌋₊ : ℝ) + 1 := Nat.lt_floor_add_one a
  have hfb0 : (⌊b⌋₊ : ℝ) ≤ b := Nat.floor_le hb0
  have hlo_hi_a : s.getD ⌊a⌋₊ 0 ≤ s.getD (min (⌊a⌋₊ + 1) (s.length - 1)) 0 := by
    apply sorted_getD_mono s hs (le_min (Nat.le_succ _) (le_trans hij hjtop))
    omega
  have hlo_hi_b : s.getD ⌊b⌋₊ 0 ≤ s.getD (min (⌊b⌋₊ + 1) (s.length - 1)) 0 := by
    apply sorted_getD_mono s hs (le_min (Nat.le_succ _) hjtop)
    omega
  unfold interpAt
  rcases Nat.lt_or_ge ⌊a⌋₊ ⌊b⌋₊ with hij' | hij'
  · have hup : s.getD ⌊a⌋₊ 0 +
        (a - (⌊a⌋₊ : ℝ)) * (s.getD (min (⌊a⌋₊ + 1) (s.length - 1)) 0 - s.getD ⌊a⌋₊ 0) ≤
        s.getD (min (⌊a⌋₊ + 1) (s.length - 1)) 0 := by
      have h1 : (a - (⌊a⌋₊ : ℝ)) * (s.getD (min (⌊a⌋₊ + 1) (s.length - 1)) 0 - s.getD ⌊a⌋₊ 0) ≤
          1 * (s.getD (min (⌊a⌋₊ + 1) (s.length - 1)) 0 - s.getD ⌊a⌋₊ 0) :=
        mul_le_mul_of_nonneg_right (by linarith) (sub_nonneg.mpr hlo_hi_a)
      linarith
    have hmid : s.getD (min (⌊a⌋₊ + 1) (s.length - 1)) 0 ≤ s.getD ⌊b⌋₊ 0 :=
      sorted_getD_mono s hs (le_trans (min_le_left _ _) hij') hjlt
    have hdown : s.getD ⌊b⌋₊ 0 ≤ s.getD ⌊b⌋₊ 0 +
        (b - (⌊b⌋₊ : ℝ)) * (s.getD (min (⌊b⌋₊ + 1) (s.length - 1)) 0 - s.getD ⌊b⌋₊ 0) := by
      have h2 : 0 ≤ (b - (⌊b⌋₊ : ℝ)) * (s.getD (min (⌊b⌋₊ + 1) (s.length - 1)) 0 - s.getD ⌊b⌋₊ 0) :=
        mul_nonneg (by linarith) (sub_nonneg.mpr hlo_hi_b)
      linarith
    linarith
  · have hij'' : ⌊a⌋₊ = ⌊b⌋₊ := le_antisymm hij hij'
    rw [hij'']
    have h3 : (a - (⌊b⌋₊ : ℝ)) * (s.getD (min (⌊b⌋₊ + 1) (s.length - 1)) 0 - s.getD ⌊b⌋₊ 0) ≤
        (b - (⌊b⌋₊ : ℝ)) * (s.getD (min (⌊b⌋₊ + 1) (s.length - 1)) 0 - s.getD ⌊b⌋₊ 0) :=
      mul_le_mul_of_nonneg_right (by linarith) (sub_nonneg.mpr hlo_hi_b)
    linarith

theorem percentile_le_percentile (xs : List ℝ) (hne : xs ≠ []) {p q : ℝ}
    (hp : 0 ≤ p) (hq : q ≤ 100) (hpq : p ≤ q) :
    percentile p xs ≤ percentile q xs := by
  unfold percentile
  have hsort : (List.insertionSort (· ≤ ·) xs).Sorted (· ≤ ·) :=
    List.sorted_insertionSort _ xs
  have hlen : 1 ≤ (List.insertionSort (· ≤ ·) xs).length := by
    rw [(List.perm_insertionSort _ xs).length_eq]
    exact List.length_pos.mpr hne
  set n := (List.insertionSort (· ≤ ·) xs).length with hn
  have hn1 : (0 : ℝ) ≤ (n : ℝ) - 1 := by
    have : (1 : ℝ) ≤ (n : ℝ) := by exact_mod_cast hlen
    linarith
  apply interpAt_mono _ hsort hlen
  · exact mul_nonneg (by linarith) hn1
  · exact mul_le_mul_of_nonneg_right (by linarith) hn1
  · have : q / 100 ≤ 1 := by linarith
    nlinarith

theorem sort_replicate (m : ℕ) (v : ℝ) :
    List.insertionSort (· ≤ ·) (List.replicate m v) = List.replicate m v := by
  apply List.eq_replicate_iff.mpr
  constructor
  · rw [(List.perm_insertionSort _ _).length_eq, List.length_replicate]
  · intro b hb
    have := (List.perm_insertionSort (· ≤ ·) (List.replicate m v)).mem_iff.mp hb
    exact List.eq_of_mem_replicate this

theorem percentile_replicate {m : ℕ} (hm : 1 ≤ m) (v : ℝ) {p : ℝ}
    (hp : 0 ≤ p) (hp' : p ≤ 100) : percentile p (List.replicate m v) = v := by
  unfold percentile interpAt
  rw [sort_replicate]
  simp only [List.length_replicate]
  have hm1 : (0 : ℝ) ≤ (m : ℝ) - 1 := by
    have : (1 : ℝ) ≤ (m : ℝ) := by exact_mod_cast hm
    linarith
  have hh0 : 0 ≤ p / 100 * ((m : ℝ) - 1) := mul_nonneg (by linarith) hm1
  have hhtop : p / 100 * ((m : ℝ) - 1) ≤ ((m - 1 : ℕ) : ℝ) := by
    rw [Nat.cast_sub hm, Nat.cast_one]
    have : p / 100 ≤ 1 := by linarith
    nlinarith
  have hfl : ⌊p / 100 * ((m : ℝ) - 1)⌋₊ < m := by
    have := Nat.floor_le_floor hhtop
    rw [Nat.floor_natCast] at this
    omega
  rw [getD_replicate_of_lt v hfl, getD_replicate_of_lt v (by omega)]
  ring

theorem listMean_replicate {m : ℕ} (hm : 1 ≤ m) (v : ℝ) :
    listMean (List.replicate m v) = v := by
  unfold listMean
  rw [List.sum_replicate, List.length_replicate, nsmul_eq_mul]
  have hm0 : (m : ℝ) ≠ 0 := Nat.cast_ne_zero.mpr (by omega)
  field_simp

theorem yearSamples_const (dayRet : ℕ → ℕ → ℝ) (c : ℝ)
    (h : ∀ off j, dayRet off j = c) (dpp : ℕ) (init : ℝ) (totalDays y : ℕ)
    (hcap : 1 ≤ 252 * y ∧ 252 * y ≤ totalDays) (sizes : List ℕ) (off : ℕ) :
    yearSamples dayRet dpp init totalDays y sizes off =
      List.replicate sizes.sum (init * (1 + c) ^ (252 * y)) := by
  induction sizes generalizing off with
  | nil => simp [yearSamples]
  | cons p rest ih =>
    rw [yearSamples, if_pos hcap, runDays_replicate dayRet c h, ih,
      List.sum_cons, List.replicate_add]

theorem aggregateYear_replicate (init v : ℝ) {m : ℕ} (hm : 1 ≤ m) :
    aggregateYear init (List.replicate m v) = List.replicate m v := by
  unfold aggregateYear
  rw [if_neg]
  simp only [ne_eq, List.replicate_eq_nil_iff]
  omega

theorem buildResult_const (init c : ℝ) (ny : ℕ) (samplesOf : ℕ → List ℝ)
    (m : ℕ → ℕ) (hm : ∀ y ∈ List.range' 1 ny, 1 ≤ m y)
    (h : ∀ y ∈ List.range' 1 ny,
      samplesOf y = List.replicate (m y) (init * (1 + c) ^ (252 * y))) :
    buildResult init ny samplesOf = constResult init c ny := by
  unfold buildResult constResult
  simp only [ProjectionResult.mk.injEq]
  refine ⟨trivial, ?_, ?_, ?_, ?_⟩
  all_goals
    apply List.map_congr_left
    intro y hy
    rw [h y hy, aggregateYear_replicate init _ (hm y hy)]
  · exact percentile_replicate (hm y hy) _ (by norm_num) (by norm_num)
  · exact percentile_replicate (hm y hy) _ (by norm_num) (by norm_num)
  · exact percentile_replicate (hm y hy) _ (by norm_num) (by norm_num)
  · exact listMean_replicate (hm y hy) _

theorem colMean_const (rows : List (List ℝ)) (r : ℝ) (hne : rows ≠ [])
    (hrows : ∀ row ∈ rows, row = [r]) : colMean rows 0 = r := by
  have hvals : colVals rows 0 = List.replicate rows.length r := by
    apply List.eq_replicate_iff.mpr
    constructor
    · simp [colVals]
    · intro b hb
      rcases List.mem_map.mp hb with ⟨row, hrow, hbeq⟩
      rw [hrows row hrow] at hbeq
      simpa using hbeq.symm
  unfold colMean
  rw [hvals, List.sum_replicate, nsmul_eq_mul]
  have hlen : (rows.length : ℝ) ≠ 0 :=
    Nat.cast_ne_zero.mpr fun h => hne (List.eq_nil_of_length_eq_zero h)
  field_simp

theorem covEntry_const_zero (rows : List (List ℝ)) (r : ℝ) (hne : rows ≠ [])
    (hrows : ∀ row ∈ rows, row = [r]) : covEntry rows 0 0 = 0 := by
  unfold covEntry
  have hz : (rows.map fun rr =>
      (rr.getD 0 0 - colMean rows 0) * (rr.getD 0 0 - colMean rows 0)) =
      List.replicate rows.length 0 := by
    apply List.eq_replicate_iff.mpr
    refine ⟨by simp, ?_⟩
    intro b hb
    rcases List.mem_map.mp hb with ⟨row, hrow, hbeq⟩
    rw [hrows row hrow, colMean_const rows r hne hrows] at hbeq
    simpa using hbeq.symm
  rw [hz, List.sum_replicate]
  simp

theorem run_single_eval (rows : List (List ℝ)) (w : ℝ) (ny npaths : ℕ)
    (init : ℝ) (cs : ℕ) (g : ℕ → ℝ) (c : ℝ) (hcols : nCols rows ≠ 0)
    (hc : ∀ n : ℕ, colMean rows 0 + Real.sqrt (max (covEntry rows 0 0) 0) * g n = c) :
    run_monte_carlo_simulation rows [w] ny npaths init cs g =
      .ok (constResult init c ny) := by
  unfold run_monte_carlo_simulation
  simp only [List.length_singleton, if_pos, if_neg hcols, reduceIte]
  congr 1
  apply buildResult_const init c ny _ (fun _ => max 1 npaths)
  · intro y _
    exact le_max_left _ _
  · intro y hy
    have hmem := List.mem_range'_1.mp hy
    have hcap : 1 ≤ 252 * y ∧ 252 * y ≤ 252 * ny := by
      constructor
      · omega
      · exact Nat.mul_le_mul_left _ (by omega)
    rw [yearSamples_const _ c (fun off j => hc (off + j)) _ _ _ _ hcap, chunkSizes_sum]

theorem getLastD_map_range (f : ℕ → List ℝ) (N : ℕ) (hN : 1 ≤ N) :
    ((List.range N).map f).getLastD [] = f (N - 1) := by
  match N, hN with
  | M + 1, _ =>
    rw [List.range_succ, List.map_append]
    simp

theorem rowMean_singleton (x : ℝ) : rowMean [x] = x := by
  simp [rowMean]

theorem cagr_eval_of_cons (r0 : List ℝ) (rest : List (List ℝ))
    (hi : 0 < rowMean r0) (hf : 0 < rowMean ((r0 :: rest).getLastD [])) :
    calculate_historical_cagr (r0 :: rest) =
      .ok ((rowMean ((r0 :: rest).getLastD []) / rowMean r0) ^
        (1 / (((r0 :: rest).length : ℝ) / 252)) - 1) := by
  have hyears : (0 : ℝ) < ((r0 :: rest).length : ℝ) / 252 := by
    apply div_pos _ (by norm_num)
    exact_mod_cast Nat.succ_pos rest.length
  have hcond : ¬(rowMean r0 ≤ 0 ∨ rowMean ((r0 :: rest).getLastD []) ≤ 0 ∨
      ((r0 :: rest).length : ℝ) / 252 ≤ 0) := by
    push_neg
    exact ⟨hi, hf, hyears⟩
  simp only [calculate_historical_cagr]
  rw [if_neg hcond]

theorem cagr_geom_eval (p0 g0 : ℝ) (N : ℕ) (hp : 0 < p0) (hg : 0 < g0)
    (hN : 1 ≤ N) :
    calculate_historical_cagr (geomSeries p0 g0 N) =
      .ok (g0 ^ (252 * ((N : ℝ) - 1) / N) - 1) := by
  match N, hN with
  | M + 1, _ =>
    have hcons : geomSeries p0 g0 (M + 1) =
        [p0 * g0 ^ 0] :: ((List.range M).map fun i => [p0 * g0 ^ (i + 1)]) := by
      unfold geomSeries
      rw [List.range_succ_eq_map, List.map_cons, List.map_map]
      rfl
    have hlast : (geomSeries p0 g0 (M + 1)).getLastD [] = [p0 * g0 ^ M] :=
      getLastD_map_range _ _ (by omega)
    have hlen : (geomSeries p0 g0 (M + 1)).length = M + 1 := by
      simp [geomSeries]
    rw [hcons]
    rw [cagr_eval_of_cons _ _ (by rw [rowMean_singleton]; positivity)
      (by rw [← hcons, hlast, rowMean_singleton]; positivity)]
    rw [← hcons, hlast, hlen, rowMean_singleton, rowMean_singleton]
    congr 1
    have h1 : p0 * g0 ^ M / (p0 * g0 ^ 0) = g0 ^ M := by
      rw [pow_zero, mul_one]
      field_simp
    have h2 : (1 : ℝ) / (((M + 1 : ℕ) : ℝ) / 252) = 252 / ((M + 1 : ℕ) : ℝ) :=
      one_div_div _ _
    rw [h1, h2, ← Real.rpow_natCast g0 M, ← Real.rpow_mul hg.le]
    congr 1
    push_cast
    ring

/-- C4: the claim says the CAGR entry points never raise and map degenerate
inputs to 0.0.  The code instead raises `IndexError` on an empty price
table: `price_data.iloc[0]` is evaluated before the degenerate-input guard
`num_years <= 0` (which is exactly the empty-table case and is therefore
dead code), contradicting the evident intent.  This theorem evaluates both
entry points at the failing input. -/
theorem C4_cagr_raises_on_empty_table :
    calculate_historical_cagr [] = .error .indexError ∧
      calculate_portfolio_historical_cagr [] [1] = .error .indexError :=
  ⟨rfl, rfl⟩

/-- C5 (amended): for a price series with constant per-day growth factor
`g0 > 0` over `N ≥ 1` rows, `calculate_historical_cagr` returns
`g0 ^ (252 * (N - 1) / N) - 1` exactly: the code divides the row count `N`
(not the day span `N - 1`) by 252, so the result equals the claimed
`g0 ^ 252 - 1` only in the limit of large `N`. -/
theorem C5_cagr_geom_growth_amended (p0 g0 : ℝ) (N : ℕ) (hp : 0 < p0)
    (hg : 0 < g0) (hN : 1 ≤ N) :
    calculate_historical_cagr (geomSeries p0 g0 N) =
      .ok (g0 ^ (252 * ((N : ℝ) - 1) / N) - 1) :=
  cagr_geom_eval p0 g0 N hp hg hN

/-- C5 (counterexample): for the two-row series `[1, 2]` with growth factor
2, the code returns `2 ^ 126 - 1`, not the claimed `2 ^ 252 - 1`. -/
theorem C5_counterexample :
    calculate_historical_cagr (geomSeries 1 2 2) ≠ .ok ((2 : ℝ) ^ (252 : ℝ) - 1) := by
  rw [cagr_geom_eval 1 2 2 one_pos two_pos (by norm_num)]
  intro h
  have h2 := Except.ok.inj h
  have hlt : (2 : ℝ) ^ (252 * ((2 : ℝ) - 1) / 2) < (2 : ℝ) ^ (252 : ℝ) :=
    (Real.rpow_lt_rpow_left_iff one_lt_two).mpr (by norm_num)
  linarith

/-- C5 (witness): the amended claim instantiated at `p0 = 1`, `g0 = 2`,
`N = 2`. -/
theorem C5_witness :
    calculate_historical_cagr (geomSeries 1 2 2) =
      .ok ((2 : ℝ) ^ (252 * ((2 : ℝ) - 1) / 2) - 1) := by
  have h := C5_cagr_geom_growth_amended 1 2 2 one_pos two_pos (by norm_num)
  simpa using h

/-- C6: `calculate_historical_cagr` returns exactly 0.0 for every
single-row price series (with at least one asset column, per the data
model), and for every non-empty series whose first-row or last-row
composite (row-mean) value is non-positive. -/
theorem C6_degenerate_cagr_zero (rows : List (List ℝ)) (hne : rows ≠ [])
    (h : (∃ r, rows = [r] ∧ r ≠ []) ∨ rowMean (rows.headD []) ≤ 0 ∨
      rowMean (rows.getLastD []) ≤ 0) :
    calculate_historical_cagr rows = .ok 0 := by
  match rows, hne with
  | r0 :: rest, _ =>
    simp only [calculate_historical_cagr]
    rcases h with ⟨r, hr, hrne⟩ | h | h
    · have hrest : rest = [] := by
        have := congrArg List.length hr
        simpa using this
      subst hrest
      by_cases hm : rowMean r0 ≤ 0
      · rw [if_pos (Or.inl hm)]
      · push_neg at hm
        have hlast : ([r0] : List (List ℝ)).getLastD [] = r0 := rfl
        rw [hlast, if_neg (by push_neg; exact ⟨hm, hm, by norm_num⟩),
          div_self hm.ne', Real.one_rpow]
        norm_num
    · rw [if_pos (Or.inl (by simpa using h))]
    · rw [if_pos (Or.inr (Or.inl h))]

/-- C6 (witness): the single-row series `[[2]]` returns exactly 0.0. -/
theorem C6_witness : calculate_historical_cagr [[(2 : ℝ)]] = .ok 0 :=
  C6_degenerate_cagr_zero [[(2 : ℝ)]] (by simp)
    (Or.inl ⟨[(2 : ℝ)], rfl, by simp⟩)

theorem exMean1 : colMean [[(0 : ℝ)], [2], [4]] 0 = 2 := by
  unfold colMean colVals
  norm_num

theorem exVar1 : covEntry [[(0 : ℝ)], [2], [4]] 0 0 = 4 := by
  unfold covEntry
  rw [exMean1]
  norm_num

theorem exSigma1 :
    Real.sqrt (max (covEntry [[(0 : ℝ)], [2], [4]] 0 0) 0) = 2 := by
  rw [exVar1, max_eq_left (by norm_num : (0 : ℝ) ≤ 4),
    show (4 : ℝ) = 2 ^ 2 by norm_num]
  exact Real.sqrt_sq (by norm_num)

theorem runStreamZero :
    run_monte_carlo_simulation [[(0 : ℝ)], [2], [4]] [1] 1 1 1 1 gZero =
      .ok (constResult 1 2 1) := by
  apply run_single_eval
  · simp [nCols]
  · intro n
    rw [exMean1, exSigma1]
    norm_num [gZero]

theorem runStreamNeg :
    run_monte_carlo_simulation [[(0 : ℝ)], [2], [4]] [1] 1 1 1 1 gNeg =
      .ok (constResult 1 (-1) 1) := by
  apply run_single_eval
  · simp [nCols]
  · intro n
    rw [exMean1, exSigma1]
    norm_num [gNeg]

/-- C1: the claim asserts seed-based reproducibility, but
`run_monte_carlo_simulation` accepts no seed or generator argument and
creates a fresh unseeded `np.random.default_rng()` internally (line 57);
the repository's own tests call it with `rng=np.random.default_rng(seed)`,
which the actual signature rejects.  With every explicit argument held
fixed, the output still depends on the generator's draw stream: this
theorem evaluates the code on the same inputs under two streams the
unseeded generator could produce and shows the results differ. -/
theorem C1_unseeded_generator_stream_dependence :
    run_monte_carlo_simulation [[(0 : ℝ)], [2], [4]] [1] 1 1 1 1 gZero ≠
      run_monte_carlo_simulation [[(0 : ℝ)], [2], [4]] [1] 1 1 1 1 gNeg := by
  rw [runStreamZero, runStreamNeg]
  intro h
  have h2 := Except.ok.inj h
  have h3 := congrArg ProjectionResult.p50 h2
  simp only [constResult, List.range'] at h3
  norm_num at h3

/-- C2: for a single-asset table whose rows all equal the constant `[r]`
(with at least two rows, the documented precondition for a well-defined
sample covariance), weights `[1.0]`, any horizon and path count of at
least 1, and positive initial value, the sample variance is zero, every
path is identical, and the returned p10/p50/p90/mean all equal
`initial_value * (1+r)^(252*y)` for every year `y` — in the real-number
embedding the equality is exact. -/
theorem C2_constant_single_asset (rows : List (List ℝ)) (r : ℝ) (ny np : ℕ)
    (init : ℝ) (cs : ℕ) (g : ℕ → ℝ) (hrows : ∀ row ∈ rows, row = [r])
    (hn : 2 ≤ rows.length) (hny : 1 ≤ ny) (hnp : 1 ≤ np) (hinit : 0 < init) :
    run_monte_carlo_simulation rows [1] ny np init cs g =
      .ok (constResult init r ny) := by
  have hne : rows ≠ [] := by
    intro hcon
    rw [hcon] at hn
    simp at hn
  have hcols : nCols rows ≠ 0 := by
    match rows, hne with
    | row0 :: rest, _ =>
      have h0 := hrows row0 (List.mem_cons_self _ _)
      simp [nCols, h0]
  apply run_single_eval
  · exact hcols
  · intro n
    rw [colMean_const rows r hne hrows, covEntry_const_zero rows r hne hrows]
    simp

/-- C2 (witness): the claim instantiated at the constant-zero two-row
single-asset table with one path and one year. -/
theorem C2_witness :
    run_monte_carlo_simulation [[(0 : ℝ)], [0]] [1] 1 1 1 1 gZero =
      .ok (constResult 1 0 1) :=
  C2_constant_single_asset [[(0 : ℝ)], [0]] 0 1 1 1 1 gZero
    (by
      intro row hrow
      rcases List.mem_cons.mp hrow with h | h
      · exact h
      · simpa using h)
    (by simp) (le_refl 1) (le_refl 1) one_pos

theorem cholStep_length (n : ℕ) (done : List (List ℝ)) (a : List ℝ)
    (x : List (List ℝ)) (h : cholStep n done a = some x) :
    x.length = done.length + 1 := by
  simp only [cholStep] at h
  split at h
  · exact absurd h (by simp)
  · have := Option.some.inj h
    rw [← this]
    simp

theorem foldlM_cholStep_length (n : ℕ) (A : List (List ℝ)) :
    ∀ done L : List (List ℝ),
      List.foldlM (cholStep n) done A = some L →
        L.length = done.length + A.length := by
  induction A with
  | nil =>
    intro done L h
    simp only [List.foldlM] at h
    have := Option.some.inj h
    simp [← this]
  | cons a rest ih =>
    intro done L h
    rw [List.foldlM_cons] at h
    cases hstep : cholStep n done a with
    | none => rw [hstep] at h; exact absurd h (by simp)
    | some done2 =>
      rw [hstep] at h
      have h1 := cholStep_length n done a done2 hstep
      have h2 := ih done2 L h
      simp only [List.length_cons]
      omega

theorem cholOpt_length (A L : List (List ℝ)) (h : cholOpt A = some L) :
    L.length = A.length := by
  have := foldlM_cholStep_length A.length A [] L h
  simpa using this

theorem covMatrix_length (rows : List (List ℝ)) :
    (covMatrix rows).length = nCols rows := by
  simp [covMatrix]

theorem cholOpt_singleton_pos (v : ℝ) (hv : 0 < v) :
    cholOpt [[v]] = some [[Real.sqrt v]] := by
  simp [cholOpt, List.foldlM, cholStep, cholRowAux, dot, hv.not_le]

theorem run_multi_eq (rows : List (List ℝ)) (weights : List ℝ) (ny np : ℕ)
    (init : ℝ) (cs : ℕ) (g : ℕ → ℝ) (hk2 : 2 ≤ weights.length) :
    run_monte_carlo_simulation rows weights ny np init cs g =
      (cholSetup (covMatrix rows) weights.length).bind
        (multiAfterChol rows weights ny np init cs g) := by
  simp only [run_monte_carlo_simulation]
  rw [if_neg (by omega), if_neg (by omega)]
  rcases hc : cholSetup (covMatrix rows) weights.length with e | L <;> rfl

theorem multiAfterChol_isOk_false (rows : List (List ℝ)) (weights : List ℝ)
    (ny np : ℕ) (init : ℝ) (cs : ℕ) (g : ℕ → ℝ) (L : List (List ℝ))
    (hny : 1 ≤ ny) (hkm : weights.length ≠ L.length) :
    (multiAfterChol rows weights ny np init cs g L).isOk = false := by
  simp only [multiAfterChol]
  rw [if_pos ⟨by omega, Or.inl hkm⟩]
  rfl

theorem run_k0_isOk_false (rows : List (List ℝ)) (ny np : ℕ) (init : ℝ)
    (cs : ℕ) (g : ℕ → ℝ) (hny : 1 ≤ ny) :
    (run_monte_carlo_simulation rows [] ny np init cs g).isOk = false := by
  have h252 : 1 ≤ 252 * ny := by omega
  by_cases hnc : nCols rows = 0 <;>
    simp [run_monte_carlo_simulation, hnc, h252, Except.isOk, Except.toBool]

theorem run_k1_isOk_true (rows : List (List ℝ)) (w : ℝ) (ny np : ℕ)
    (init : ℝ) (cs : ℕ) (g : ℕ → ℝ) (hnc : nCols rows ≠ 0) :
    (run_monte_carlo_simulation rows [w] ny np init cs g).isOk = true := by
  simp [run_monte_carlo_simulation, hnc, Except.isOk, Except.toBool]

theorem exMean0 : colMean [[(0 : ℝ), 0], [0, 0]] 0 = 0 := by
  unfold colMean colVals
  norm_num

theorem exVar0 : covEntry [[(0 : ℝ), 0], [0, 0]] 0 0 = 0 := by
  unfold covEntry
  rw [exMean0]
  norm_num

/-- C3 (counterexample): the claim says every length mismatch between the
weight vector and the asset columns raises.  Here the table has two asset
columns while the weight vector has length one, yet the call returns a
`ProjectionResult`: with `asset_count = len(weights) = 1` the code takes the
single-asset branch, which never consults the table's column count and
silently simulates using only the first column's statistics. -/
theorem C3_counterexample :
    run_monte_carlo_simulation [[(0 : ℝ), 0], [0, 0]] [1] 1 1 1 1 gZero =
      .ok (constResult 1 0 1) := by
  apply run_single_eval
  · simp [nCols]
  · intro n
    rw [exMean0, exVar0]
    simp [gZero]

/-- C3 (amended): the mismatch contract actually implemented: a call with an
empty weight vector always fails; a call with `k ≥ 2` weights and `k`
different from the column count fails (via the shape error numpy raises on
the first day's matrix product) except in the degenerate broadcast case of a
single column with non-positive sample variance; but a call with exactly one
weight never checks the column count and succeeds whenever the table has at
least one column. -/
theorem C3_shape_mismatch_amended (rows : List (List ℝ)) (weights : List ℝ)
    (ny np : ℕ) (init : ℝ) (cs : ℕ) (g : ℕ → ℝ) (hny : 1 ≤ ny) :
    (weights.length = 0 →
      (run_monte_carlo_simulation rows weights ny np init cs g).isOk = false) ∧
    (2 ≤ weights.length → weights.length ≠ nCols rows →
      (nCols rows = 1 → 0 < covEntry rows 0 0) →
      (run_monte_carlo_simulation rows weights ny np init cs g).isOk = false) ∧
    (weights.length = 1 → nCols rows ≠ 0 →
      (run_monte_carlo_simulation rows weights ny np init cs g).isOk = true) := by
  refine ⟨?_, ?_, ?_⟩
  · intro h0
    rcases weights with _ | ⟨w, rest⟩
    · exact run_k0_isOk_false rows ny np init cs g hny
    · simp at h0
  · intro hk2 hkn hvar
    rw [run_multi_eq rows weights ny np init cs g hk2]
    rcases hc : cholSetup (covMatrix rows) weights.length with e | L
    · rfl
    · have hL : L.length = nCols rows := by
        simp only [cholSetup] at hc
        rcases h1 : cholOpt (covMatrix rows) with _ | L0
        · rw [h1] at hc
          rcases h2 : jitterAdd (covMatrix rows) weights.length with _ | A2
          · rw [h2] at hc
            exact absurd hc (by simp)
          · rw [h2] at hc
            by_cases hnc1 : nCols rows = 1
            · have hcm : covMatrix rows = [[covEntry rows 0 0]] := by
                simp [covMatrix, hnc1, List.range_succ]
              rw [hcm, cholOpt_singleton_pos _ (hvar hnc1)] at h1
              exact absurd h1 (by simp)
            · have hn : (covMatrix rows).length = nCols rows := covMatrix_length rows
              simp only [jitterAdd] at h2
              rw [if_neg (by rw [hn]; exact fun hcon => hkn hcon.symm),
                if_neg (by rw [hn]; exact hnc1)] at h2
              exact absurd h2 (by simp)
        · rw [h1] at hc
          have hL0 : L0 = L := by simpa using hc
          rw [← hL0, cholOpt_length _ _ h1, covMatrix_length]
      exact multiAfterChol_isOk_false rows weights ny np init cs g L hny
        (by rw [hL]; exact hkn)
  · intro h1 hnc
    rcases weights with _ | ⟨w, rest⟩
    · simp at h1
    · rcases rest with _ | ⟨w2, rest2⟩
      · exact run_k1_isOk_true rows w ny np init cs g hnc
      · simp at h1

/-- C3 (witness): a three-element weight vector against a two-column table:
the amended claim's mismatch branch applies and the call fails. -/
theorem C3_witness :
    (run_monte_carlo_simulation [[(0 : ℝ), 0], [2, 2], [4, 4]] [1, 1, 1]
      1 1 1 1 gZero).isOk = false :=
  (C3_shape_mismatch_amended [[(0 : ℝ), 0], [2, 2], [4, 4]] [1, 1, 1]
      1 1 1 1 gZero (le_refl 1)).2.1
    (by simp) (by simp [nCols])
    (fun hcon => absurd hcon (by simp [nCols]))

theorem cholOpt_singleton_nonpos (v : ℝ) (hv : v ≤ 0) : cholOpt [[v]] = none := by
  have hstep : cholStep 1 [] [v] = none := by
    simp [cholStep, cholRowAux, dot, hv]
  show List.foldlM (cholStep 1) [] [[v]] = none
  rw [List.foldlM_cons, hstep]
  rfl

theorem cholOpt_diag2 (a : ℝ) (ha : 0 < a) :
    cholOpt [[a, 0], [0, a]] = some [[Real.sqrt a, 0], [0, Real.sqrt a]] := by
  have hstep1 : cholStep 2 [] [a, 0] = some [[Real.sqrt a, 0]] := by
    simp [cholStep, cholRowAux, dot, ha.not_le]
  have hstep2 : cholStep 2 [[Real.sqrt a, 0]] [0, a] =
      some [[Real.sqrt a, 0], [0, Real.sqrt a]] := by
    simp [cholStep, cholRowAux, dot, ha.not_le]
  show List.foldlM (cholStep 2) [] [[a, 0], [0, a]] = _
  rw [List.foldlM_cons, hstep1]
  show List.foldlM (cholStep 2) [[Real.sqrt a, 0]] [[0, a]] = _
  rw [List.foldlM_cons, hstep2]
  rfl

theorem cholOpt_diag2_nonpos (a : ℝ) (ha : a ≤ 0) :
    cholOpt [[a, 0], [0, a]] = none := by
  have hstep1 : cholStep 2 [] [a, 0] = none := by
    simp [cholStep, cholRowAux, dot, ha]
  show List.foldlM (cholStep 2) [] [[a, 0], [0, a]] = none
  rw [List.foldlM_cons, hstep1]
  rfl

/-- C7: in the multi-asset case the call factors through a single
`cholSetup` invocation performed before any chunk is simulated, whose
factor `L` is the one fixed matrix every day's draw of `multiAfterChol`
reuses; `cholSetup` tries the covariance matrix once, on failure retries
exactly once after adding the `1e-8` diagonal jitter, and propagates the
decomposition error if the retry also fails.  The last two conjuncts
exhibit the retry behavior concretely: a matrix whose jittered version is
still not positive definite makes the whole call's setup fail, and a
singular `1×1` zero matrix fails first, is jittered, and then succeeds. -/
theorem C7_cholesky_once_with_jitter_retry (rows : List (List ℝ))
    (weights : List ℝ) (ny np : ℕ) (init : ℝ) (cs : ℕ) (g : ℕ → ℝ)
    (A : List (List ℝ)) (k2 : ℕ) (hk : 2 ≤ weights.length) :
    run_monte_carlo_simulation rows weights ny np init cs g =
      (cholSetup (covMatrix rows) weights.length).bind
        (multiAfterChol rows weights ny np init cs g) ∧
    cholSetup A k2 =
      (match cholOpt A with
       | some L => .ok L
       | none =>
         match jitterAdd A k2 with
         | none => .error .shapeError
         | some A2 =>
           match cholOpt A2 with
           | some L => .ok L
           | none => .error .linalgError) ∧
    cholSetup [[(-1 : ℝ), 0], [0, -1]] 2 = .error .linalgError ∧
    cholSetup [[(0 : ℝ)]] 2 =
      .ok [[Real.sqrt 1e-8, 0], [0, Real.sqrt 1e-8]] := by
  refine ⟨run_multi_eq rows weights ny np init cs g hk, rfl, ?_, ?_⟩
  · have h1 := cholOpt_diag2_nonpos (-1) (by norm_num)
    have h2 : jitterAdd [[(-1 : ℝ), 0], [0, -1]] 2 =
        some [[(-1 : ℝ) + 1e-8, 0], [0, (-1 : ℝ) + 1e-8]] := by
      norm_num [jitterAdd, List.range_succ]
    have h3 := cholOpt_diag2_nonpos ((-1 : ℝ) + 1e-8) (by norm_num)
    simp [cholSetup, h1, h2, h3]
  · have h1 := cholOpt_singleton_nonpos 0 (le_refl 0)
    have h2 : jitterAdd [[(0 : ℝ)]] 2 =
        some [[(1e-8 : ℝ), 0], [0, 1e-8]] := by
      norm_num [jitterAdd, List.range_succ]
    have h3 := cholOpt_diag2 (1e-8) (by norm_num)
    simp [cholSetup, h1, h2, h3]

/-- C7 (witness): the factorization instantiated at a concrete two-asset
call. -/
theorem C7_witness :
    run_monte_carlo_simulation [[(0 : ℝ), 0], [0, 0]] [1, 1] 1 1 1 1 gZero =
      (cholSetup (covMatrix [[(0 : ℝ), 0], [0, 0]]) 2).bind
        (multiAfterChol [[(0 : ℝ), 0], [0, 0]] [1, 1] 1 1 1 1 gZero) ∧
    cholSetup [[(0 : ℝ)]] 3 =
      (match cholOpt [[(0 : ℝ)]] with
       | some L => .ok L
       | none =>
         match jitterAdd [[(0 : ℝ)]] 3 with
         | none => .error .shapeError
         | some A2 =>
           match cholOpt A2 with
           | some L => .ok L
           | none => .error .linalgError) ∧
    cholSetup [[(-1 : ℝ), 0], [0, -1]] 2 = .error .linalgError ∧
    cholSetup [[(0 : ℝ)]] 2 =
      .ok [[Real.sqrt 1e-8, 0], [0, Real.sqrt 1e-8]] :=
  C7_cholesky_once_with_jitter_retry [[(0 : ℝ), 0], [0, 0]] [1, 1] 1 1 1 1
    gZero [[(0 : ℝ)]] 3 (by simp)

theorem run_ok_buildResult (rows : List (List ℝ)) (weights : List ℝ)
    (ny np : ℕ) (init : ℝ) (cs : ℕ) (g : ℕ → ℝ) (res : ProjectionResult)
    (h : run_monte_carlo_simulation rows weights ny np init cs g = .ok res) :
    ∃ f : ℕ → List ℝ, res = buildResult init ny f := by
  simp only [run_monte_carlo_simulation] at h
  by_cases h1 : weights.length = 1
  · rw [if_pos h1] at h
    by_cases hnc : nCols rows = 0
    · rw [if_pos hnc] at h
      exact absurd h (by simp)
    · rw [if_neg hnc] at h
      exact ⟨_, (Except.ok.inj h).symm⟩
  · rw [if_neg h1] at h
    by_cases h0 : weights.length = 0
    · rw [if_pos h0] at h
      by_cases hnc : nCols rows = 0
      · rw [if_pos hnc] at h
        exact absurd h (by simp)
      · rw [if_neg hnc] at h
        by_cases htd : 1 ≤ 252 * ny
        · rw [if_pos htd] at h
          exact absurd h (by simp)
        · rw [if_neg htd] at h
          exact ⟨_, (Except.ok.inj h).symm⟩
    · rw [if_neg h0] at h
      rcases hc : cholSetup (covMatrix rows) weights.length with e | L
      · rw [hc] at h
        exact absurd h (by simp)
      · rw [hc] at h
        simp only [multiAfterChol] at h
        by_cases hcond : 1 ≤ 252 * ny ∧ (weights.length ≠ L.length ∨
            (nCols rows ≠ L.length ∧ nCols rows ≠ 1))
        · rw [if_pos hcond] at h
          exact absurd h (by simp)
        · rw [if_neg hcond] at h
          exact ⟨_, (Except.ok.inj h).symm⟩

theorem aggregateYear_ne_nil (init : ℝ) (s : List ℝ) :
    aggregateYear init s ≠ [] := by
  unfold aggregateYear
  by_cases hs : s = []
  · rw [if_pos hs]
    simp
  · rw [if_neg hs]
    exact hs

theorem buildResult_percentile_order (init : ℝ) (ny : ℕ) (f : ℕ → List ℝ)
    (i : ℕ) :
    (buildResult init ny f).p10.getD i 0 ≤ (buildResult init ny f).p50.getD i 0 ∧
    (buildResult init ny f).p50.getD i 0 ≤ (buildResult init ny f).p90.getD i 0 := by
  simp only [buildResult]
  by_cases hi : i < (List.range' 1 ny).length
  · rw [List.getD_eq_getElem _ _ (by simpa using hi),
      List.getD_eq_getElem _ _ (by simpa using hi),
      List.getD_eq_getElem _ _ (by simpa using hi)]
    simp only [List.getElem_map]
    constructor
    · exact percentile_le_percentile _ (aggregateYear_ne_nil _ _)
        (by norm_num) (by norm_num) (by norm_num)
    · exact percentile_le_percentile _ (aggregateYear_ne_nil _ _)
        (by norm_num) (by norm_num) (by norm_num)
  · push_neg at hi
    rw [List.getD_eq_default _ _ (by simpa using hi),
      List.getD_eq_default _ _ (by simpa using hi),
      List.getD_eq_default _ _ (by simpa using hi)]
    exact ⟨le_refl 0, le_refl 0⟩

/-- C8: whenever the simulation returns a result, each year's percentiles
satisfy p10 ≤ p50 ≤ p90, because all three are linear-interpolation
percentiles (at 10, 50 and 90) of the same collected year sample. -/
theorem C8_percentile_monotone (rows : List (List ℝ)) (weights : List ℝ)
    (ny np : ℕ) (init : ℝ) (cs : ℕ) (g : ℕ → ℝ) (res : ProjectionResult)
    (h : run_monte_carlo_simulation rows weights ny np init cs g = .ok res)
    (i : ℕ) :
    res.p10.getD i 0 ≤ res.p50.getD i 0 ∧
      res.p50.getD i 0 ≤ res.p90.getD i 0 := by
  obtain ⟨f, hf⟩ := run_ok_buildResult rows weights ny np init cs g res h
  rw [hf]
  exact buildResult_percentile_order init ny f i

/-- Shared concrete evaluation: the two-row constant-zero single-asset call
returns the constant projection, used to instantiate claims about
successful runs. -/
theorem runExampleConst :
    run_monte_carlo_simulation [[(0 : ℝ)], [0]] [1] 1 1 1 1 gZero =
      .ok (constResult 1 0 1) := by
  apply run_single_eval
  · simp [nCols]
  · intro n
    have hm : colMean [[(0 : ℝ)], [0]] 0 = 0 := by
      unfold colMean colVals
      norm_num
    have hv : covEntry [[(0 : ℝ)], [0]] 0 0 = 0 := by
      unfold covEntry
      rw [hm]
      norm_num
    rw [hm, hv]
    simp

/-- C8 (witness): the ordering at year 1 of a concrete successful run. -/
theorem C8_witness :
    (constResult (1 : ℝ) 0 1).p10.getD 0 0 ≤ (constResult (1 : ℝ) 0 1).p50.getD 0 0 ∧
      (constResult (1 : ℝ) 0 1).p50.getD 0 0 ≤ (constResult (1 : ℝ) 0 1).p90.getD 0 0 :=
  C8_percentile_monotone [[(0 : ℝ)], [0]] [1] 1 1 1 1 gZero
    (constResult 1 0 1) runExampleConst 0

/-- C9: whenever the simulation returns a result, `years` is exactly the
ascending sequence `1, 2, ..., num_years` (`List.range' 1 ny`), and each of
the four percentile sequences has exactly `num_years` entries, positionally
aligned with `years`. -/
theorem C9_output_shape (rows : List (List ℝ)) (weights : List ℝ)
    (ny np : ℕ) (init : ℝ) (cs : ℕ) (g : ℕ → ℝ) (res : ProjectionResult)
    (h : run_monte_carlo_simulation rows weights ny np init cs g = .ok res) :
    res.years = List.range' 1 ny ∧ res.p10.length = ny ∧
      res.p50.length = ny ∧ res.p90.length = ny ∧ res.mean.length = ny := by
  obtain ⟨f, hf⟩ := run_ok_buildResult rows weights ny np init cs g res h
  subst hf
  simp [buildResult]

/-- C9 (witness): the output shape of a concrete one-year run. -/
theorem C9_witness :
    (constResult (1 : ℝ) 0 1).years = List.range' 1 1 ∧
      (constResult (1 : ℝ) 0 1).p10.length = 1 ∧
      (constResult (1 : ℝ) 0 1).p50.length = 1 ∧
      (constResult (1 : ℝ) 0 1).p90.length = 1 ∧
      (constResult (1 : ℝ) 0 1).mean.length = 1 :=
  C9_output_shape [[(0 : ℝ)], [0]] [1] 1 1 1 1 gZero
    (constResult 1 0 1) runExampleConst

/-- C10: for every year the engine's aggregator actually visits (the years
`1..num_years`, whose capture day `252*y` always lies within the simulated
horizon `252*num_years`), the collected year sample contains exactly the
clamped path count `max 1 num_paths` values — one per path, across all
chunks — and is therefore never empty, so the fallback that substitutes
`initial_value` as the sole sample is unreachable. -/
theorem C10_fallback_unreachable (dayRet : ℕ → ℕ → ℝ) (dpp : ℕ) (init : ℝ)
    (ny npRaw csRaw y off : ℕ) (hy : y ∈ List.range' 1 ny) :
    (yearSamples dayRet dpp init (252 * ny) y
        (chunkSizes (max 1 npRaw) (max 1 (min csRaw (max 1 npRaw)))) off).length =
      max 1 npRaw ∧
    yearSamples dayRet dpp init (252 * ny) y
        (chunkSizes (max 1 npRaw) (max 1 (min csRaw (max 1 npRaw)))) off ≠ [] ∧
    aggregateYear init (yearSamples dayRet dpp init (252 * ny) y
        (chunkSizes (max 1 npRaw) (max 1 (min csRaw (max 1 npRaw)))) off) =
      yearSamples dayRet dpp init (252 * ny) y
        (chunkSizes (max 1 npRaw) (max 1 (min csRaw (max 1 npRaw)))) off := by
  have hmem := List.mem_range'_1.mp hy
  have hcap : 1 ≤ 252 * y ∧ 252 * y ≤ 252 * ny := by
    constructor
    · omega
    · exact Nat.mul_le_mul_left _ (by omega)
  have hlen : (yearSamples dayRet dpp init (252 * ny) y
      (chunkSizes (max 1 npRaw) (max 1 (min csRaw (max 1 npRaw)))) off).length =
      max 1 npRaw := by
    rw [yearSamples_length, if_pos hcap, chunkSizes_sum]
  have hne : yearSamples dayRet dpp init (252 * ny) y
      (chunkSizes (max 1 npRaw) (max 1 (min csRaw (max 1 npRaw)))) off ≠ [] := by
    intro hcon
    rw [hcon] at hlen
    simp at hlen
    omega
  refine ⟨hlen, hne, ?_⟩
  unfold aggregateYear
  rw [if_neg hne]

/-- C10 (witness): year 1 of a one-year, one-path configuration collects
exactly one value and takes no fallback. -/
theorem C10_witness :
    (yearSamples (fun _ _ => (0 : ℝ)) 1 1 (252 * 1) 1
        (chunkSizes (max 1 1) (max 1 (min 1 (max 1 1)))) 0).length = max 1 1 ∧
    yearSamples (fun _ _ => (0 : ℝ)) 1 1 (252 * 1) 1
        (chunkSizes (max 1 1) (max 1 (min 1 (max 1 1)))) 0 ≠ [] ∧
    aggregateYear 1 (yearSamples (fun _ _ => (0 : ℝ)) 1 1 (252 * 1) 1
        (chunkSizes (max 1 1) (max 1 (min 1 (max 1 1)))) 0) =
      yearSamples (fun _ _ => (0 : ℝ)) 1 1 (252 * 1) 1
        (chunkSizes (max 1 1) (max 1 (min 1 (max 1 1)))) 0 :=
  C10_fallback_unreachable (fun _ _ => (0 : ℝ)) 1 1 1 1 1 1 0 (by decide)

end SmartRisk
